import Mathlib

/-!
Verification of the passage ingest-and-sync pipeline of
src/apis/passage/passage.service.ts.

The service is embedded shallowly:
- strings are Lean strings, with the character-level operations of the
  source (slice, trim, replace, toLocaleLowerCase, endsWith) modelled on
  the underlying character lists;
- the notes directory is a tree of entries, each file carrying the result
  of the front-matter split and YAML decode (js-yaml is an external
  collaborator, so its output is modelled as an optional record of
  optional string fields);
- prettier.format and moment parsing are external collaborators, passed
  in as function parameters fmt and parse;
- the in-place Array.prototype.sort with a consistent comparator is
  modelled by a stable insertion sort over the comparator-induced
  boolean order;
- the module-level mutable flag uploaded is threaded explicitly through
  the model of onUpload.
-/

/-- The record produced for each markdown file, mirroring the fields
assigned in parseFile of passage.service.ts. -/
structure PassageSchema where
  filename : String
  filepath : String
  title : String
  content : String
  description : String
  mtime : String
  date : String
  permalink : String
deriving DecidableEq

/-- Front-matter fields of one file, as decoded by js-yaml from the YAML
block. Scalar values are modelled as strings; a key absent from the
front-matter is none. -/
structure Yaml where
  permalink : Option String
  title : Option String
  date : Option String
deriving DecidableEq

/-- JS truthiness of an optional string value: undefined and the empty
string are falsy, every other string is truthy. -/
def truthyStr : Option String → Bool
  | none => false
  | some s => s != ""

/-- toLocaleLowerCase, modelled character by character. -/
def jsToLower (s : String) : String :=
  String.mk (s.data.map Char.toLower)

/-- Whether a character list begins with a dot. -/
def headIsDot : List Char → Bool
  | c :: _ => c = '.'
  | [] => false

/-- The test of the regular expression matching one or more leading digits
followed by a dot (validNameRe in passage.service.ts). -/
def startsWithDigitsDot (s : String) : Bool :=
  let ds := s.data.takeWhile Char.isDigit
  !ds.isEmpty && headIsDot (s.data.drop ds.length)

/-- isValidName from passage.service.ts: the name lowercases to
"readme.md", or it matches the leading-digits-plus-dot convention. -/
def isValidName (name : String) : Bool :=
  if jsToLower name = "readme.md" then true
  else startsWithDigitsDot name

/-- endsWith applied to the markdown extension, modelled on character
lists. -/
def endsWithMd (name : String) : Bool :=
  ".md".data.isSuffixOf name.data

/-- Node path.parse(filepath).name: the base name with its final extension
removed. A dot at position 0 of the base name does not begin an
extension. -/
def stripLastExt (base : String) : String :=
  let r := base.data.reverse
  let suff := r.takeWhile (fun c => c ≠ '.')
  if suff.length = r.length then base
  else
    let rest := r.drop (suff.length + 1)
    if rest.isEmpty then base
    else String.mk rest.reverse

/-- The lazy anchored replacement used in parseName on the parent folder
name: strip the leading run of digits together with one following dot,
when that dot is present; otherwise leave the name unchanged. -/
def stripDigitsDot (s : String) : String :=
  let ds := s.data.takeWhile Char.isDigit
  match s.data.drop ds.length with
  | '.' :: rest => String.mk rest
  | _ => s

/-- parseName from passage.service.ts. A path is modelled as the list of
its directory components followed by the file's base name. For a base
name other than "readme" (case-insensitively) the derived name is the
base name without extension; for "readme" it is the last directory
component with the digits-plus-dot replacement applied. -/
def parseName (dirs : List String) (base : String) : String :=
  let name := stripLastExt base
  if jsToLower name ≠ "readme" then name
  else stripDigitsDot ((dirs.getLast?).getD "")

/-- The global newline removal replace on the formatted body. -/
def removeNewlines (s : String) : String :=
  String.mk (s.data.filter (fun c => c ≠ '\n'))

/-- String.prototype.trim: whitespace removed from both ends. -/
def jsTrim (s : String) : String :=
  String.mk (((s.data.dropWhile Char.isWhitespace).reverse.dropWhile
    Char.isWhitespace).reverse)

/-- String.prototype.slice(0, n): the first n characters. -/
def jsSliceStr (s : String) (n : Nat) : String :=
  String.mk (s.data.take n)

/-- The fixed trailing marker appended to every description. -/
def descriptionMarker : String := "....."

/-- The description computation in parseFile: newlines removed, trimmed,
sliced to 155 characters, marker appended. -/
def descriptionOf (formatted : String) : String :=
  jsSliceStr (jsTrim (removeNewlines formatted)) 155 ++ descriptionMarker

/-- Occurrence of a pattern as a contiguous segment of a character list,
the behaviour of String.prototype.includes. -/
def containsSeg (pat : List Char) : List Char → Bool
  | [] => pat.isEmpty
  | c :: cs => if pat.isPrefixOf (c :: cs) then true else containsSeg pat cs

/-- Membership test of the substring "invalid" in the lowercased formatted
date, from formatDate. -/
def hasInvalid (s : String) : Bool :=
  containsSeg "invalid".data (jsToLower s).data

/-- formatDate from passage.service.ts. now is the current wall clock
already formatted with timeFormat; parse models strict moment parsing
followed by formatting, returning none exactly when isValid() is false. -/
def formatDate (now : String) (parse : String → Option String)
    (timeStr : Option String) : Except String String :=
  if !truthyStr timeStr then Except.ok now
  else
    match parse (timeStr.getD "") with
    | none => Except.error "frontmatter.date is valid"
    | some res =>
      if hasInvalid res then Except.ok now
      else Except.ok res

/-- The path string of a file, used for the filepath field and error
messages. -/
def filepathOf (dirs : List String) (name : String) : String :=
  String.intercalate "/" (dirs ++ [name])

/-- parseFile from passage.service.ts, applied to the outcome of the
front-matter split and YAML decode of one file. fmt models
prettier.format with the markdown parser. A missing header or a falsy
permalink raises; so does an unparseable date inside formatDate. -/
def parseFile (fmt : String → String) (now : String)
    (parse : String → Option String) (dirs : List String) (name : String)
    (yamlInfo : Option Yaml) (mdContent : String) :
    Except String PassageSchema :=
  match yamlInfo with
  | some yi =>
    if truthyStr yi.permalink then
      match formatDate now parse yi.date with
      | Except.error e => Except.error e
      | Except.ok mtimeStr =>
        let formatMdContent := fmt mdContent
        let filename := parseName dirs name
        Except.ok {
          filename := filename
          filepath := filepathOf dirs name
          title := if truthyStr yi.title then yi.title.getD "" else filename
          content := formatMdContent
          description := descriptionOf formatMdContent
          mtime := mtimeStr
          date := jsSliceStr mtimeStr 10
          permalink := yi.permalink.getD ""
        }
    else Except.error (filepathOf dirs name ++ " frontmatter is invalid")
  | none => Except.error (filepathOf dirs name ++ " frontmatter is invalid")

/-- One entry of the notes directory tree. A file carries the decoded
front-matter and the markdown body produced by the front-matter split of
its raw text. -/
inductive Entry where
  | file (name : String) (yamlInfo : Option Yaml) (mdContent : String)
  | dir (name : String) (entries : List Entry)

mutual

/-- The body of the loop of _load for a single directory entry: invalid
names are skipped, valid markdown files are parsed with per-file failures
dropped after logging, valid directories are recursed into. -/
def walkEntry (fmt : String → String) (now : String)
    (parse : String → Option String) (dirs : List String) :
    Entry → List PassageSchema
  | Entry.file name yamlInfo mdContent =>
    if isValidName name then
      if endsWithMd name then
        match parseFile fmt now parse dirs name yamlInfo mdContent with
        | Except.ok p => [p]
        | Except.error _ => []
      else []
    else []
  | Entry.dir name entries =>
    if isValidName name then walkEntries fmt now parse (dirs ++ [name]) entries
    else []

/-- _load from passage.service.ts: directory entries processed
sequentially in listing order, successful parses appended in order. -/
def walkEntries (fmt : String → String) (now : String)
    (parse : String → Option String) (dirs : List String) :
    List Entry → List PassageSchema
  | [] => []
  | e :: es =>
    walkEntry fmt now parse dirs e ++ walkEntries fmt now parse dirs es

end

/-- Strict lexicographic comparison of character lists, the behaviour of
the JS string < operator used by the sort comparators. -/
def lexLt : List Char → List Char → Bool
  | [], [] => false
  | [], _ :: _ => true
  | _ :: _, [] => false
  | a :: as, b :: bs =>
    if a < b then true else if b < a then false else lexLt as bs

/-- The relation in which the ascending comparator of load leaves adjacent
elements: the comparator returns a nonpositive value, that is, the first
date is not greater than the second. -/
def dateLe (a b : PassageSchema) : Bool :=
  !(lexLt b.date.data a.date.data)

/-- The relation in which the descending comparator of load leaves
adjacent elements: the first date is not smaller than the second. -/
def dateGe (a b : PassageSchema) : Bool :=
  !(lexLt a.date.data b.date.data)

/-- Insertion of one element into a list sorted by a boolean comparator,
before the first element it compares at-most-equal to. -/
def insertLe {α : Type} (le : α → α → Bool) (a : α) : List α → List α
  | [] => [a]
  | b :: bs => if le a b then a :: b :: bs else b :: insertLe le a bs

/-- Stable insertion sort by a boolean comparator: the model of
Array.prototype.sort with a consistent comparator. -/
def sortLe {α : Type} (le : α → α → Bool) : List α → List α
  | [] => []
  | a :: as => insertLe le a (sortLe le as)

/-- The sort step of load: ascending or descending by date per the flag. -/
def sortPassages (asc : Bool) (ps : List PassageSchema) : List PassageSchema :=
  if asc then sortLe dateLe ps else sortLe dateGe ps

/-- load from passage.service.ts. The configured root folder is none when
the folder does not exist on disk, in which case load throws; otherwise
the held collection is replaced by the walk's results and sorted. -/
def load (fmt : String → String) (now : String)
    (parse : String → Option String) (folderName : String)
    (root : Option (List Entry)) (asc : Bool) :
    Except String (List PassageSchema) :=
  match root with
  | none => Except.error ("Load passage fail: " ++ folderName ++ " is invalid")
  | some entries =>
    Except.ok (sortPassages asc (walkEntries fmt now parse [folderName] entries))

/-- describePassageById from passage.service.ts: Array.prototype.find on
the held collection, undefined modelled as none. -/
def describePassageById (passages : List PassageSchema) (psgId : String) :
    Option PassageSchema :=
  passages.find? (fun item => item.permalink == psgId)

/-- Array.prototype.slice with integer arguments: negative indices count
from the end, both indices clamp to the array bounds. -/
def jsSlice {α : Type} (l : List α) (s e : Int) : List α :=
  let len : Int := l.length
  let k : Int := if s < 0 then max (len + s) 0 else min s len
  let fin : Int := if e < 0 then max (len + e) 0 else min e len
  (l.take fin.toNat).drop k.toNat

/-- describePassages from passage.service.ts: the slice of the held
collection from (page - 1) * limit to page * limit. -/
def describePassages (passages : List PassageSchema) (limit page : Int) :
    List PassageSchema :=
  jsSlice passages ((page - 1) * limit) (page * limit)

/-- The observable outcome of one run of onUpload: the value of the
module-level uploaded flag afterwards, the permalinks upserted to the
remote collection in order, and whether the repeated-upload notice was
logged. -/
structure UploadResult where
  uploadedAfter : Bool
  upserts : List String
  repeatedNotice : Bool
deriving DecidableEq

/-- onUpload from passage.service.ts with the module-level uploaded flag
passed explicitly. The source reads the flag to decide between the notice
and the batch of updatePassage calls, and never assigns to it, so the
flag is returned unchanged on both branches. -/
def onUpload (uploaded : Bool) (passages : List PassageSchema) : UploadResult :=
  if uploaded then
    { uploadedAfter := uploaded, upserts := [], repeatedNotice := true }
  else
    { uploadedAfter := uploaded
      upserts := passages.map (fun p => p.permalink)
      repeatedNotice := false }

/-- A sample passage used to instantiate hypotheses at concrete inputs. -/
def samplePassage (pl : String) (d : String) : PassageSchema :=
  { filename := pl
    filepath := "notes/" ++ pl ++ ".md"
    title := pl
    content := ""
    description := descriptionMarker
    mtime := d ++ " 00:00:00"
    date := d
    permalink := pl }

/-- A sample valid markdown file entry used to instantiate hypotheses at
concrete inputs. -/
def sampleEntryA : Entry :=
  Entry.file "01.a.md"
    (some { permalink := some "a", title := none, date := some "2024-03-03 00:00:00" })
    "x"

/-- A second sample valid markdown file entry with a later date. -/
def sampleEntryB : Entry :=
  Entry.file "02.b.md"
    (some { permalink := some "b", title := none, date := some "2024-05-05 00:00:00" })
    "y"

/-- The passage produced by parsing sampleEntryA under the identity
formatter at the root folder "notes". -/
def samplePsgA : PassageSchema :=
  { filename := "01.a"
    filepath := "notes/01.a.md"
    title := "01.a"
    content := "x"
    description := "x....."
    mtime := "2024-03-03 00:00:00"
    date := "2024-03-03"
    permalink := "a" }

/-- The passage produced by parsing sampleEntryB under the identity
formatter at the root folder "notes". -/
def samplePsgB : PassageSchema :=
  { filename := "02.b"
    filepath := "notes/02.b.md"
    title := "02.b"
    content := "y"
    description := "y....."
    mtime := "2024-05-05 00:00:00"
    date := "2024-05-05"
    permalink := "b" }

/-! ### General helper lemmas -/

theorem drop_length_takeWhile (p : Char → Bool) (l : List Char) :
    l.drop (l.takeWhile p).length = l.dropWhile p := by
  induction l with
  | nil => rfl
  | cons c cs ih =>
    by_cases h : p c
    · simp [List.takeWhile_cons, List.dropWhile_cons, h, ih]
    · simp [List.takeWhile_cons, List.dropWhile_cons, h]

theorem takeWhile_digits_append (ds rest : List Char)
    (h : ∀ c ∈ ds, c.isDigit = true) :
    (ds ++ '.' :: rest).takeWhile Char.isDigit = ds := by
  induction ds with
  | nil => simp [List.takeWhile_cons]
  | cons c cs ih =>
    have hc : c.isDigit = true := h c (by simp)
    simp only [List.cons_append, List.takeWhile_cons, hc, if_true, List.cons.injEq, true_and]
    exact ih (fun x hx => h x (by simp [hx]))

theorem stripDigitsDot_append (ds rest : List Char)
    (h : ∀ c ∈ ds, c.isDigit = true) :
    stripDigitsDot (String.mk (ds ++ '.' :: rest)) = String.mk rest := by
  have h1 : (String.mk (ds ++ '.' :: rest)).data = ds ++ '.' :: rest := rfl
  simp only [stripDigitsDot, h1, takeWhile_digits_append ds rest h]
  rw [show (ds ++ '.' :: rest).drop ds.length = '.' :: rest from List.drop_left ds ('.' :: rest)]
  rfl

theorem headIsDot_iff (l : List Char) : headIsDot l = true ↔ ∃ t, l = '.' :: t := by
  cases l with
  | nil => simp [headIsDot]
  | cons c cs =>
    simp only [headIsDot, decide_eq_true_eq]
    constructor
    · intro h; exact ⟨cs, by rw [h]⟩
    · rintro ⟨t, ht⟩
      cases ht
      rfl

theorem lexLt_lex : ∀ cs ds : List Char, lexLt cs ds = true ↔ List.Lex (· < ·) cs ds := by
  intro cs
  induction cs with
  | nil =>
    intro ds
    cases ds with
    | nil => simp [lexLt]
    | cons d ds => simp only [lexLt, true_iff]; exact List.Lex.nil
  | cons a as ih =>
    intro ds
    cases ds with
    | nil => simp [lexLt]
    | cons b bs =>
      simp only [lexLt]
      by_cases hab : a < b
      · simp only [hab, if_true, true_iff]
        exact List.Lex.rel hab
      · by_cases hba : b < a
        · simp only [hab, if_false, hba, if_true]
          constructor
          · intro h; exact Bool.noConfusion h
          · intro hlex
            exfalso
            cases hlex with
            | cons h => exact absurd hba (lt_irrefl a)
            | rel h => exact absurd h hab
        · have he : a = b := le_antisymm (not_lt.mp hba) (not_lt.mp hab)
          subst he
          simp only [hab, if_false, ih bs]
          exact (List.Lex.cons_iff).symm

theorem lexLt_iff_lt (s t : String) : lexLt s.data t.data = true ↔ s < t := by
  rw [String.lt_iff_toList_lt]
  exact lexLt_lex s.data t.data

theorem dateLe_iff (a b : PassageSchema) : dateLe a b = true ↔ a.date ≤ b.date := by
  unfold dateLe
  rw [Bool.not_eq_true']
  rw [← Bool.not_eq_true]
  rw [not_iff_not.mpr (lexLt_iff_lt b.date a.date)]
  exact not_lt

theorem dateGe_iff (a b : PassageSchema) : dateGe a b = true ↔ b.date ≤ a.date := by
  unfold dateGe
  rw [Bool.not_eq_true']
  rw [← Bool.not_eq_true]
  rw [not_iff_not.mpr (lexLt_iff_lt a.date b.date)]
  exact not_lt

/-! ### Insertion sort lemmas -/

theorem insertLe_perm {α : Type} (le : α → α → Bool) (a : α) :
    ∀ l : List α, (insertLe le a l).Perm (a :: l) := by
  intro l
  induction l with
  | nil => simp [insertLe]
  | cons b bs ih =>
    by_cases h : le a b = true
    · simp [insertLe, h]
    · simp only [insertLe, h, if_false]
      exact (ih.cons b).trans (List.Perm.swap a b bs)

theorem sortLe_perm {α : Type} (le : α → α → Bool) :
    ∀ l : List α, (sortLe le l).Perm l := by
  intro l
  induction l with
  | nil => exact List.Perm.refl []
  | cons a as ih =>
    exact (insertLe_perm le a (sortLe le as)).trans (ih.cons a)

theorem mem_insertLe {α : Type} (le : α → α → Bool) (a x : α) (l : List α) :
    x ∈ insertLe le a l ↔ x = a ∨ x ∈ l := by
  rw [(insertLe_perm le a l).mem_iff]
  simp

theorem insertLe_pairwise {α : Type} (le : α → α → Bool)
    (htot : ∀ a b, ¬ le a b = true → le b a = true)
    (htrans : ∀ a b c, le a b = true → le b c = true → le a c = true)
    (a : α) : ∀ l : List α, l.Pairwise (fun x y => le x y = true) →
      (insertLe le a l).Pairwise (fun x y => le x y = true) := by
  intro l
  induction l with
  | nil => intro _; simp [insertLe]
  | cons b bs ih =>
    intro hp
    rcases List.pairwise_cons.mp hp with ⟨hb, hbs⟩
    by_cases h : le a b = true
    · simp only [insertLe, h, if_true]
      refine List.pairwise_cons.mpr ⟨?_, hp⟩
      intro x hx
      rcases List.mem_cons.mp hx with rfl | hx
      · exact h
      · exact htrans a b x h (hb x hx)
    · simp only [insertLe, h, if_false]
      refine List.pairwise_cons.mpr ⟨?_, ih hbs⟩
      intro x hx
      rcases (mem_insertLe le a x bs).mp hx with hxa | hx
      · rw [hxa]
        exact htot a b h
      · exact hb x hx

theorem sortLe_pairwise {α : Type} (le : α → α → Bool)
    (htot : ∀ a b, ¬ le a b = true → le b a = true)
    (htrans : ∀ a b c, le a b = true → le b c = true → le a c = true) :
    ∀ l : List α, (sortLe le l).Pairwise (fun x y => le x y = true) := by
  intro l
  induction l with
  | nil => simp [sortLe]
  | cons a as ih => exact insertLe_pairwise le htot htrans a (sortLe le as) ih

theorem dateLe_total (a b : PassageSchema) (h : ¬ dateLe a b = true) :
    dateLe b a = true := by
  rw [dateLe_iff] at h ⊢
  exact le_of_not_le h

theorem dateLe_trans (a b c : PassageSchema) (h1 : dateLe a b = true)
    (h2 : dateLe b c = true) : dateLe a c = true := by
  rw [dateLe_iff] at h1 h2 ⊢
  exact le_trans h1 h2

theorem dateGe_total (a b : PassageSchema) (h : ¬ dateGe a b = true) :
    dateGe b a = true := by
  rw [dateGe_iff] at h ⊢
  exact le_of_not_le h

theorem dateGe_trans (a b c : PassageSchema) (h1 : dateGe a b = true)
    (h2 : dateGe b c = true) : dateGe a c = true := by
  rw [dateGe_iff] at h1 h2 ⊢
  exact le_trans h2 h1

theorem sortPassages_perm (asc : Bool) (ps : List PassageSchema) :
    (sortPassages asc ps).Perm ps := by
  unfold sortPassages
  split
  · exact sortLe_perm dateLe ps
  · exact sortLe_perm dateGe ps

/-! ### parseFile and walk facts -/

theorem truthyStr_getD (o : Option String) (h : truthyStr o = true) :
    o.getD "" ≠ "" := by
  cases o with
  | none => exact Bool.noConfusion h
  | some s =>
    simp only [truthyStr, bne_iff_ne] at h
    simpa using h

theorem parseFile_ok (fmt : String → String) (now : String)
    (parse : String → Option String) (dirs : List String) (name : String)
    (yamlInfo : Option Yaml) (mdContent : String) (p : PassageSchema)
    (h : parseFile fmt now parse dirs name yamlInfo mdContent = Except.ok p) :
    ∃ yi, yamlInfo = some yi ∧ truthyStr yi.permalink = true ∧
      p.permalink = yi.permalink.getD "" ∧
      p.description = descriptionOf (fmt mdContent) := by
  cases yamlInfo with
  | none => exact Except.noConfusion h
  | some yi =>
    by_cases ht : truthyStr yi.permalink = true
    · refine ⟨yi, rfl, ht, ?_⟩
      simp only [parseFile, ht, if_true] at h
      cases hfd : formatDate now parse yi.date with
      | error e =>
        rw [hfd] at h
        exact Except.noConfusion h
      | ok mt =>
        rw [hfd] at h
        cases h
        exact ⟨rfl, rfl⟩
    · simp only [parseFile, ht, if_false] at h
      exact Except.noConfusion h

theorem walk_permalink_aux (fmt : String → String) (now : String)
    (parse : String → Option String) :
    ∀ n : Nat,
      (∀ e : Entry, sizeOf e ≤ n → ∀ dirs p,
        p ∈ walkEntry fmt now parse dirs e → p.permalink ≠ "") ∧
      (∀ es : List Entry, sizeOf es ≤ n → ∀ dirs p,
        p ∈ walkEntries fmt now parse dirs es → p.permalink ≠ "") := by
  intro n
  induction n using Nat.strong_induction_on with
  | _ n ihn =>
    constructor
    · intro e hn dirs p hp
      cases e with
      | file name yamlInfo mdContent =>
        simp only [walkEntry] at hp
        split at hp
        · split at hp
          · split at hp
            · rename_i q hq
              rw [List.mem_singleton.mp hp]
              rcases parseFile_ok fmt now parse dirs name yamlInfo mdContent q hq
                with ⟨yi, _, htr, hperm, _⟩
              rw [hperm]
              exact truthyStr_getD yi.permalink htr
            · exact absurd hp (List.not_mem_nil p)
          · exact absurd hp (List.not_mem_nil p)
        · exact absurd hp (List.not_mem_nil p)
      | dir name entries =>
        simp only [walkEntry] at hp
        split at hp
        · have hlt : sizeOf entries < n := by
            have := Entry.dir.sizeOf_spec name entries
            omega
          exact (ihn (sizeOf entries) hlt).2 entries le_rfl (dirs ++ [name]) p hp
        · exact absurd hp (List.not_mem_nil p)
    · intro es hn dirs p hp
      cases es with
      | nil => exact absurd hp (List.not_mem_nil p)
      | cons e rest =>
        have hsz := List.cons.sizeOf_spec e rest
        simp only [walkEntries] at hp
        rcases List.mem_append.mp hp with h1 | h2
        · have hlt : sizeOf e < n := by omega
          exact (ihn (sizeOf e) hlt).1 e le_rfl dirs p h1
        · have hlt : sizeOf rest < n := by omega
          exact (ihn (sizeOf rest) hlt).2 rest le_rfl dirs p h2

theorem walkEntries_permalink_nonempty (fmt : String → String) (now : String)
    (parse : String → Option String) (dirs : List String) (es : List Entry)
    (p : PassageSchema) (hp : p ∈ walkEntries fmt now parse dirs es) :
    p.permalink ≠ "" :=
  (walk_permalink_aux fmt now parse (sizeOf es)).2 es le_rfl dirs p hp

/-! ### Lemmas for the query surface -/

theorem find?_eq_head_filter {α : Type} (p : α → Bool) :
    ∀ l : List α, l.find? p = (l.filter p).head? := by
  intro l
  induction l with
  | nil => rfl
  | cons a as ih =>
    by_cases h : p a = true
    · rw [List.find?_cons_of_pos _ h, List.filter_cons_of_pos h, List.head?_cons]
    · have h2 : ¬ p a := h
      rw [List.find?_cons_of_neg _ h2, List.filter_cons_of_neg h2, ih]

theorem take_min_drop {α : Type} (l : List α) (sN limN : Nat) :
    (l.take (min (sN + limN) l.length)).drop (min sN l.length) =
      (l.drop sN).take limN := by
  rcases le_or_lt l.length sN with hle | hlt
  · rw [min_eq_right (le_trans hle (Nat.le_add_right sN limN)), min_eq_right hle]
    rw [List.take_length, List.drop_length]
    rw [List.drop_eq_nil_of_le hle]
    simp
  · rw [min_eq_left (le_of_lt hlt)]
    rw [List.drop_take]
    refine List.take_eq_take.mpr ?_
    rw [List.length_drop]
    omega

/-! ### Claim theorems -/

/-- C1: The claim that a second sync trigger in one process is a no-op
fails on the code: the module-level uploaded flag is read in onUpload but
never assigned, so after a first trigger the flag is still false and a
second trigger performs a full second batch of remote upserts and does
not log the repeated-upload notice. This theorem evaluates onUpload at
two consecutive triggers from the initial flag state. -/
theorem onUpload_second_trigger_repeats :
    (onUpload false [samplePassage "a" "2024-01-01"]).upserts = ["a"] ∧
    (onUpload (onUpload false [samplePassage "a" "2024-01-01"]).uploadedAfter
      [samplePassage "a" "2024-01-01"]).upserts = ["a"] ∧
    (onUpload (onUpload false [samplePassage "a" "2024-01-01"]).uploadedAfter
      [samplePassage "a" "2024-01-01"]).repeatedNotice = false := by
  decide

/-- C4: When the configured root folder does not exist, load fails with
the configuration error and returns nothing else; when it exists, load
returns the fully-replaced sorted collection, a permutation of every
passage produced by the walk, so no partial collection is ever
returned. -/
theorem load_root_missing_or_full (fmt : String → String) (now : String)
    (parse : String → Option String) (folderName : String) (asc : Bool) :
    load fmt now parse folderName none asc =
      Except.error ("Load passage fail: " ++ folderName ++ " is invalid") ∧
    ∀ entries, ∃ l,
      load fmt now parse folderName (some entries) asc = Except.ok l ∧
      l = sortPassages asc (walkEntries fmt now parse [folderName] entries) ∧
      l.Perm (walkEntries fmt now parse [folderName] entries) := by
  refine ⟨rfl, ?_⟩
  intro entries
  exact ⟨_, rfl, rfl, sortPassages_perm asc _⟩

/-- C2: For every state of the notes directory, load(true) returns a
sequence whose date fields are non-decreasing, load(false) returns one
whose date fields are non-increasing, and the two results carry the same
multiset of permalink values. -/
theorem load_sorted_and_permalinks (fmt : String → String) (now : String)
    (parse : String → Option String) (folderName : String)
    (entries : List Entry) (l1 l2 : List PassageSchema)
    (h1 : load fmt now parse folderName (some entries) true = Except.ok l1)
    (h2 : load fmt now parse folderName (some entries) false = Except.ok l2) :
    List.Sorted (· ≤ ·) (l1.map PassageSchema.date) ∧
    List.Sorted (· ≥ ·) (l2.map PassageSchema.date) ∧
    (↑(l1.map PassageSchema.permalink) : Multiset String) =
      ↑(l2.map PassageSchema.permalink) := by
  have e1 : sortLe dateLe (walkEntries fmt now parse [folderName] entries) = l1 := by
    simpa [load, sortPassages] using h1
  have e2 : sortLe dateGe (walkEntries fmt now parse [folderName] entries) = l2 := by
    simpa [load, sortPassages] using h2
  subst e1
  subst e2
  refine ⟨?_, ?_, ?_⟩
  · exact List.Pairwise.map PassageSchema.date
      (fun a b hab => (dateLe_iff a b).mp hab)
      (sortLe_pairwise dateLe dateLe_total dateLe_trans _)
  · exact List.Pairwise.map PassageSchema.date
      (fun a b hab => (dateGe_iff a b).mp hab)
      (sortLe_pairwise dateGe dateGe_total dateGe_trans _)
  · exact Multiset.coe_eq_coe.mpr
      (((sortLe_perm dateLe _).trans
        (sortLe_perm dateGe _).symm).map PassageSchema.permalink)

/-- Witness for C2 at a concrete two-file directory state. -/
theorem load_sorted_and_permalinks_witness :
    List.Sorted (· ≤ ·) ([samplePsgA, samplePsgB].map PassageSchema.date) ∧
    List.Sorted (· ≥ ·) ([samplePsgB, samplePsgA].map PassageSchema.date) ∧
    (↑([samplePsgA, samplePsgB].map PassageSchema.permalink) : Multiset String) =
      ↑([samplePsgB, samplePsgA].map PassageSchema.permalink) :=
  load_sorted_and_permalinks id "2024-01-02 03:04:05" (fun s => some s) "notes"
    [sampleEntryB, sampleEntryA] [samplePsgA, samplePsgB] [samplePsgB, samplePsgA]
    rfl rfl

/-- C3: A file whose front-matter header is absent or lacks a permalink
field fails to parse, the directory walk continues past it unchanged
without aborting, and every passage of any successfully loaded
collection has a non-empty permalink. -/
theorem invalid_frontmatter_never_loaded (fmt : String → String) (now : String)
    (parse : String → Option String) (dirs : List String) (name : String)
    (yamlInfo : Option Yaml) (mdContent : String) (rest : List Entry)
    (hbad : yamlInfo = none ∨ ∃ yi, yamlInfo = some yi ∧ yi.permalink = none) :
    (∃ msg, parseFile fmt now parse dirs name yamlInfo mdContent =
      Except.error msg) ∧
    walkEntries fmt now parse dirs (Entry.file name yamlInfo mdContent :: rest) =
      walkEntries fmt now parse dirs rest ∧
    (∀ folderName root asc l,
      load fmt now parse folderName root asc = Except.ok l →
      ∀ p ∈ l, p.permalink ≠ "") := by
  have herr : ∃ msg, parseFile fmt now parse dirs name yamlInfo mdContent =
      Except.error msg := by
    rcases hbad with rfl | ⟨yi, rfl, hperm⟩
    · exact ⟨_, rfl⟩
    · refine ⟨filepathOf dirs name ++ " frontmatter is invalid", ?_⟩
      simp [parseFile, hperm, truthyStr]
  refine ⟨herr, ?_, ?_⟩
  · rcases herr with ⟨msg, hmsg⟩
    have hfile : walkEntry fmt now parse dirs (Entry.file name yamlInfo mdContent)
        = [] := by
      by_cases hv : isValidName name = true
      · by_cases hm : endsWithMd name = true
        · simp [walkEntry, hv, hm, hmsg]
        · simp [walkEntry, hv, hm]
      · simp [walkEntry, hv]
    show walkEntry fmt now parse dirs (Entry.file name yamlInfo mdContent) ++
      walkEntries fmt now parse dirs rest = walkEntries fmt now parse dirs rest
    rw [hfile]
    rfl
  · intro folderName root asc l hl p hp
    cases root with
    | none => exact Except.noConfusion hl
    | some entries =>
      have he : sortPassages asc (walkEntries fmt now parse [folderName] entries)
          = l := Except.ok.inj hl
      subst he
      have hp2 : p ∈ walkEntries fmt now parse [folderName] entries :=
        (sortPassages_perm asc _).mem_iff.mp hp
      exact walkEntries_permalink_nonempty fmt now parse [folderName] entries p hp2

/-- Witness for C3 at a concrete file with no front-matter header. -/
theorem invalid_frontmatter_never_loaded_witness :
    parseFile id "2024-01-02 03:04:05" (fun s => some s) ["notes"] "01.bad.md"
      none "z" = Except.error "notes/01.bad.md frontmatter is invalid" ∧
    walkEntries id "2024-01-02 03:04:05" (fun s => some s) ["notes"]
      [Entry.file "01.bad.md" none "z", sampleEntryA] =
      walkEntries id "2024-01-02 03:04:05" (fun s => some s) ["notes"]
        [sampleEntryA] ∧
    samplePsgA.permalink ≠ "" := by
  have h := invalid_frontmatter_never_loaded id "2024-01-02 03:04:05"
    (fun s => some s) ["notes"] "01.bad.md" none "z" [sampleEntryA] (Or.inl rfl)
  refine ⟨rfl, h.2.1, ?_⟩
  exact h.2.2 "notes" (some [sampleEntryA]) true [samplePsgA] rfl samplePsgA
    (by decide)

/-- C5: Every successfully parsed passage's description is the formatted
body with newlines removed, trimmed, cut to its first 155 characters,
with the fixed marker appended whether or not truncation occurred; hence
the description always ends with the marker and has length at most 155
plus the marker length. -/
theorem description_shape (fmt : String → String) (now : String)
    (parse : String → Option String) (dirs : List String) (name : String)
    (yamlInfo : Option Yaml) (mdContent : String) (p : PassageSchema)
    (h : parseFile fmt now parse dirs name yamlInfo mdContent = Except.ok p) :
    p.description =
      jsSliceStr (jsTrim (removeNewlines (fmt mdContent))) 155 ++
        descriptionMarker ∧
    List.IsSuffix descriptionMarker.data p.description.data ∧
    p.description.length ≤ 155 + descriptionMarker.length := by
  rcases parseFile_ok fmt now parse dirs name yamlInfo mdContent p h
    with ⟨yi, _, _, _, hdesc⟩
  have hd : p.description =
      jsSliceStr (jsTrim (removeNewlines (fmt mdContent))) 155 ++
        descriptionMarker := hdesc
  refine ⟨hd, ?_, ?_⟩
  · exact ⟨(jsSliceStr (jsTrim (removeNewlines (fmt mdContent))) 155).data, by
      rw [hd, String.data_append]⟩
  · rw [hd, String.length_append]
    have hlen : (jsSliceStr (jsTrim (removeNewlines (fmt mdContent))) 155).length
        ≤ 155 := by
      show ((jsTrim (removeNewlines (fmt mdContent))).data.take 155).length ≤ 155
      rw [List.length_take]
      omega
    omega

/-- Witness for C5 at a concrete successfully parsed file. -/
theorem description_shape_witness :
    samplePsgA.description =
      jsSliceStr (jsTrim (removeNewlines (id "x"))) 155 ++ descriptionMarker ∧
    List.IsSuffix descriptionMarker.data samplePsgA.description.data ∧
    samplePsgA.description.length ≤ 155 + descriptionMarker.length :=
  description_shape id "2024-01-02 03:04:05" (fun s => some s) ["notes"]
    "01.a.md"
    (some { permalink := some "a", title := none, date := some "2024-03-03 00:00:00" })
    "x" samplePsgA rfl

/-- C6: A file whose base name is case-insensitively "readme" under a
parent directory whose name is a digits-plus-dot run followed by the
rest derives its filename as that rest; every other file derives its
base name without extension, unchanged. -/
theorem parseName_readme_and_plain (dirs : List String) (d base other : String)
    (ds rest : List Char) :
    (jsToLower (stripLastExt base) = "readme" → d.data = ds ++ '.' :: rest →
      (∀ c ∈ ds, c.isDigit = true) →
      parseName (dirs ++ [d]) base = String.mk rest) ∧
    (jsToLower (stripLastExt other) ≠ "readme" →
      parseName dirs other = stripLastExt other) := by
  constructor
  · intro hr hd hds
    have hd2 : d = String.mk (ds ++ '.' :: rest) := by
      cases d with
      | mk l => exact congrArg String.mk hd
    unfold parseName
    rw [if_neg (not_not_intro hr)]
    rw [List.getLast?_concat]
    show stripDigitsDot d = String.mk rest
    rw [hd2]
    exact stripDigitsDot_append ds rest hds
  · intro ho
    unfold parseName
    rw [if_pos ho]

/-- Witness for C6 at the spec's two example paths. -/
theorem parseName_readme_and_plain_witness :
    parseName ["notes", "03.topics"] "readme.md" = "topics" ∧
    parseName ["notes"] "02.intro.md" = "02.intro" := by
  have h := parseName_readme_and_plain ["notes"] "03.topics" "readme.md"
    "02.intro.md" "03".data "topics".data
  exact ⟨(h.1 (by decide) (by decide) (by decide)).trans (by decide),
    (h.2 (by decide)).trans (by decide)⟩

/-- C10: In the readme special case the derivation strips the shortest
leading zero-or-more-digits-plus-dot run from the parent folder name, so
a parent whose name begins with a bare dot and no digits also has the
dot stripped: ".topics" yields "topics". -/
theorem parseName_dot_parent :
    (∀ (dirs : List String) (rest : List Char),
      parseName (dirs ++ [String.mk ('.' :: rest)]) "readme.md" =
        String.mk rest) ∧
    parseName ["notes", ".topics"] "readme.md" = "topics" := by
  constructor
  · intro dirs rest
    unfold parseName
    rw [if_neg (not_not_intro (by decide :
      jsToLower (stripLastExt "readme.md") = "readme"))]
    rw [List.getLast?_concat]
    show stripDigitsDot (String.mk ('.' :: rest)) = String.mk rest
    have h := stripDigitsDot_append [] rest (by simp)
    simpa using h
  · decide

/-- C7: A directory entry is a traversal candidate iff its name
lowercases to "readme.md" or begins with one or more digits followed by
a dot; a non-candidate file or directory contributes nothing, a
candidate file not ending in ".md" contributes nothing, a candidate
markdown file contributes exactly its parse result, and a candidate
directory is recursed into. -/
theorem walk_filter (fmt : String → String) (now : String)
    (parse : String → Option String) (dirs : List String) (name : String)
    (yamlInfo : Option Yaml) (mdContent : String) (entries : List Entry) :
    (isValidName name = true ↔
      (jsToLower name = "readme.md" ∨
        ∃ ds rest, name.data = ds ++ '.' :: rest ∧ ds ≠ [] ∧
          ∀ c ∈ ds, c.isDigit = true)) ∧
    (isValidName name = false →
      walkEntry fmt now parse dirs (Entry.file name yamlInfo mdContent) = [] ∧
      walkEntry fmt now parse dirs (Entry.dir name entries) = []) ∧
    (isValidName name = true → endsWithMd name = false →
      walkEntry fmt now parse dirs (Entry.file name yamlInfo mdContent) = []) ∧
    (isValidName name = true → endsWithMd name = true →
      walkEntry fmt now parse dirs (Entry.file name yamlInfo mdContent) =
        (parseFile fmt now parse dirs name yamlInfo mdContent).toOption.toList) ∧
    (isValidName name = true →
      walkEntry fmt now parse dirs (Entry.dir name entries) =
        walkEntries fmt now parse (dirs ++ [name]) entries) := by
  refine ⟨?_, ?_, ?_, ?_, ?_⟩
  · unfold isValidName
    by_cases hr : jsToLower name = "readme.md"
    · simp [hr]
    · rw [if_neg hr]
      constructor
      · intro h
        right
        have h2 : (name.data.takeWhile Char.isDigit).isEmpty = false ∧
            headIsDot (name.data.drop
              (name.data.takeWhile Char.isDigit).length) = true := by
          simpa [startsWithDigitsDot] using h
        rcases h2 with ⟨hne, hdot⟩
        rcases (headIsDot_iff _).mp hdot with ⟨t, ht⟩
        refine ⟨name.data.takeWhile Char.isDigit, t, ?_, ?_, ?_⟩
        · conv_lhs => rw [← List.takeWhile_append_dropWhile Char.isDigit name.data]
          rw [← drop_length_takeWhile Char.isDigit name.data, ht]
        · intro hnil
          rw [hnil] at hne
          simp at hne
        · intro c hc
          exact List.mem_takeWhile_imp hc
      · rintro (hfalse | ⟨ds, rest, hdata, hne, hdig⟩)
        · exact absurd hfalse hr
        · have h1 : ds.isEmpty = false := by
            cases ds with
            | nil => exact absurd rfl hne
            | cons c cs => rfl
          have h3 : startsWithDigitsDot name =
              (!ds.isEmpty && headIsDot (List.drop ds.length (ds ++ '.' :: rest))) := by
            simp only [startsWithDigitsDot, hdata,
              takeWhile_digits_append ds rest hdig]
          rw [h3, List.drop_left]
          simp [headIsDot, h1]
  · intro hv
    constructor
    · simp [walkEntry, hv]
    · simp [walkEntry, hv]
  · intro hv hm
    simp [walkEntry, hv, hm]
  · intro hv hm
    simp only [walkEntry, hv, hm, if_true]
    cases hpf : parseFile fmt now parse dirs name yamlInfo mdContent with
    | ok q => simp [Except.toOption]
    | error e => simp [Except.toOption]
  · intro hv
    simp [walkEntry, hv]

/-- Witness for C7 at the spec's example root listing. -/
theorem walk_filter_witness :
    isValidName "notes.txt" = false ∧
    walkEntry id "2024-01-02 03:04:05" (fun s => some s) ["notes"]
      (Entry.file "notes.txt" none "n") = [] ∧
    walkEntry id "2024-01-02 03:04:05" (fun s => some s) ["notes"]
      (Entry.file "01.data.txt" none "n") = [] ∧
    walkEntry id "2024-01-02 03:04:05" (fun s => some s) ["notes"]
      (Entry.file "01.a.md"
        (some { permalink := some "a", title := none,
                date := some "2024-03-03 00:00:00" }) "x") =
      (parseFile id "2024-01-02 03:04:05" (fun s => some s) ["notes"] "01.a.md"
        (some { permalink := some "a", title := none,
                date := some "2024-03-03 00:00:00" }) "x").toOption.toList ∧
    walkEntry id "2024-01-02 03:04:05" (fun s => some s) ["notes"]
      (Entry.dir "01.d" [sampleEntryA]) =
      walkEntries id "2024-01-02 03:04:05" (fun s => some s) ["notes", "01.d"]
        [sampleEntryA] := by
  have h1 := walk_filter id "2024-01-02 03:04:05" (fun s => some s) ["notes"]
    "notes.txt" none "n" []
  have h2 := walk_filter id "2024-01-02 03:04:05" (fun s => some s) ["notes"]
    "01.data.txt" none "n" []
  have h3 := walk_filter id "2024-01-02 03:04:05" (fun s => some s) ["notes"]
    "01.a.md"
    (some { permalink := some "a", title := none,
            date := some "2024-03-03 00:00:00" }) "x" []
  have h4 := walk_filter id "2024-01-02 03:04:05" (fun s => some s) ["notes"]
    "01.d" none "n" [sampleEntryA]
  exact ⟨by decide, (h1.2.1 (by decide)).1, h2.2.2.1 (by decide) (by decide),
    h3.2.2.2.1 (by decide) (by decide), h4.2.2.2.2 (by decide)⟩

/-- C8: describePassages(limit, page) returns the contiguous slice of the
held collection at zero-based offsets (page-1)*limit through
page*limit - 1, and every page number beyond the collection size yields
the empty sequence rather than an error. -/
theorem describePassages_is_slice (passages : List PassageSchema)
    (limit page : Int) (hl : 1 ≤ limit) (hp : 1 ≤ page) :
    describePassages passages limit page =
      (passages.drop ((page - 1) * limit).toNat).take limit.toNat ∧
    ((passages.length : Int) < page →
      describePassages passages limit page = []) := by
  have hs0 : 0 ≤ (page - 1) * limit := mul_nonneg (by omega) (by omega)
  have he0 : 0 ≤ page * limit := mul_nonneg (by omega) (by omega)
  have hse : page * limit = (page - 1) * limit + limit := by ring
  have hmain : describePassages passages limit page =
      (passages.drop ((page - 1) * limit).toNat).take limit.toNat := by
    simp only [describePassages, jsSlice]
    rw [if_neg (by omega : ¬ (page - 1) * limit < 0)]
    rw [if_neg (by omega : ¬ page * limit < 0)]
    have h1 : (min ((page - 1) * limit) (passages.length : Int)).toNat =
        min ((page - 1) * limit).toNat passages.length := by omega
    have h2 : (min (page * limit) (passages.length : Int)).toNat =
        min (((page - 1) * limit).toNat + limit.toNat) passages.length := by
      omega
    rw [h1, h2, take_min_drop]
  refine ⟨hmain, ?_⟩
  intro hL
  rw [hmain]
  have h4 : (page - 1) * 1 ≤ (page - 1) * limit :=
    mul_le_mul_of_nonneg_left hl (by omega)
  have h5 : passages.length ≤ ((page - 1) * limit).toNat := by omega
  rw [List.drop_eq_nil_of_le h5]
  exact List.take_nil

/-- Witness for C8: page 1 of size 2 returns offsets 0 and 1; a page past
the end returns the empty sequence. -/
theorem describePassages_is_slice_witness :
    describePassages [samplePsgA, samplePsgB] 2 1 = [samplePsgA, samplePsgB] ∧
    describePassages [samplePsgA] 2 5 = [] := by
  have h1 := describePassages_is_slice [samplePsgA, samplePsgB] 2 1
    (by decide) (by decide)
  have h2 := describePassages_is_slice [samplePsgA] 2 5 (by decide) (by decide)
  exact ⟨h1.1.trans (by decide), h2.2 (by decide)⟩

/-- C9: describePassageById scans the snapshot in stored order and
returns the first passage whose permalink equals the requested id, and a
not-found signal when no loaded passage matches. -/
theorem describePassageById_spec (passages : List PassageSchema)
    (psgId : String) :
    describePassageById passages psgId =
      (passages.filter (fun p => p.permalink == psgId)).head? ∧
    (∀ q, describePassageById passages psgId = some q →
      q ∈ passages ∧ q.permalink = psgId) ∧
    (describePassageById passages psgId = none ↔
      ∀ p ∈ passages, p.permalink ≠ psgId) := by
  refine ⟨find?_eq_head_filter _ passages, ?_, ?_⟩
  · intro q hq
    refine ⟨List.mem_of_find?_eq_some hq, ?_⟩
    have h2 := List.find?_some hq
    simpa using h2
  · unfold describePassageById
    rw [List.find?_eq_none]
    constructor
    · intro h p hp
      simpa using h p hp
    · intro h p hp
      simpa using h p hp

/-- Witness for C9: a present permalink is found with its passage, and an
absent permalink yields none. -/
theorem describePassageById_spec_witness :
    describePassageById [samplePsgA, samplePsgB] "b" = some samplePsgB ∧
    samplePsgB ∈ [samplePsgA, samplePsgB] ∧
    samplePsgB.permalink = "b" ∧
    describePassageById [samplePsgA] "zzz" = none := by
  have h := describePassageById_spec [samplePsgA, samplePsgB] "b"
  have h2 := describePassageById_spec [samplePsgA] "zzz"
  have hfound : describePassageById [samplePsgA, samplePsgB] "b" =
      some samplePsgB := by decide
  rcases h.2.1 samplePsgB hfound with ⟨hm, hpl⟩
  exact ⟨hfound, hm, hpl, h2.2.2.mpr (by decide)⟩
